import Mathlib

/-
Verification of the VdfsHandler tree-resolution and synchronization engine
(src/VdfsHandler.py).

The in-memory VFS tree is supplied by an external collaborator (the zenkit
library).  Following the specification, the collaborator is modelled from its
contract in spec §6: a root directory node, `find` (global name lookup),
`Node.create` (appends a child, creation order preserved), `Node.remove`
(removes a child by name), children iteration in creation order,
directory/file classification, `name` and `data` access.  The contract leaves
the case-sensitivity of lookups to the collaborator; here lookups are
modelled as exact (case-sensitive) string matches and the global `find` as a
pre-order depth-first search over the tree in creation order.

Node identity (Python object identity) is modelled by paths: a node is
addressed by the list of child indices leading to it from the root, and every
mutation is append-only, so previously computed paths stay valid, exactly as
Python object references do.  Host-filesystem state is modelled by the
`HostEntry` tree (for reads during insertion) and by a trace of `FsAct`
actions (for writes during export).  Python exceptions are modelled with
`Except`; the byte payload of a file is a list of byte values.
-/

namespace Vdfs

/-- A node of the mounted VFS tree: a file with a byte payload or a
directory with children in creation order (spec §3 Node). -/
inductive VNode where
  | file (name : String) (data : List Nat)
  | dir (name : String) (children : List VNode)
deriving Repr

/-- The whole tree is the list of children of the (nameless) root. -/
abbrev Tree := List VNode

/-- Name of a node (`Node.name`). -/
def vname : VNode → String
  | .file n _ => n
  | .dir n _ => n

/-- Children of a node; files have none. -/
def childrenOf : VNode → List VNode
  | .file _ _ => []
  | .dir _ kids => kids

/-- Shift the first index of a node path by one (used to step over an elder
sibling during the depth-first search). -/
def bump : List Nat → List Nat
  | [] => []
  | i :: r => (i + 1) :: r

mutual
/-- Modelled from the spec: search inside one node for a descendant named
`x`, pre-order, children in creation order (collaborator `find`). -/
def findInside (x : String) : VNode → Option (List Nat)
  | .file _ _ => none
  | .dir _ kids => findList x kids
/-- Modelled from the spec: global name lookup over a sibling list; returns
the path (child indices) of the first node named `x` in pre-order. -/
def findList (x : String) : List VNode → Option (List Nat)
  | [] => none
  | c :: cs =>
    if vname c = x then some [0]
    else
      match findInside x c with
      | some p => some (0 :: p)
      | none => (findList x cs).map bump
end

/-- Node addressed by a path of child indices (empty path = no node; the
root itself is not a `VNode`). -/
def nodeAtPath (t : Tree) : List Nat → Option VNode
  | [] => none
  | i :: p =>
    match t[i]? with
    | none => none
    | some c =>
      match p with
      | [] => some c
      | _ :: _ => nodeAtPath (childrenOf c) p

/-- Children list of the node addressed by a path ([] = the root's children). -/
def childrenAtPath (t : Tree) : List Nat → Option (List VNode)
  | [] => some t
  | i :: p =>
    match t[i]? with
    | none => none
    | some c => childrenAtPath (childrenOf c) p

/-- Number of children of the node at a path (0 if the path is invalid). -/
def childCountAt (t : Tree) (p : List Nat) : Nat :=
  ((childrenAtPath t p).getD []).length

/-- Replace the i-th element of a sibling list. -/
def updateAt : List VNode → Nat → (VNode → VNode) → List VNode
  | [], _, _ => []
  | c :: cs, 0, f => f c :: cs
  | c :: cs, i + 1, f => c :: updateAt cs i f

/-- Apply `f` to the children list of the node at path `p` (no-op on an
invalid path or on a file node). -/
def modifyChildren (t : Tree) : List Nat → (List VNode → List VNode) → Tree
  | [], f => f t
  | i :: p, f =>
    updateAt t i (fun c =>
      match c with
      | .file n d => .file n d
      | .dir n kids => .dir n (modifyChildren kids p f))

/-- Modelled from the spec: `Node.create` — append a new child to the node
at path `p`, preserving creation order. -/
def appendChildAt (t : Tree) (p : List Nat) (c : VNode) : Tree :=
  modifyChildren t p (fun kids => kids ++ [c])

/-- Python exceptions relevant to the handler. -/
inductive PyErr where
  | valueError
  | nodeNotFound
  | attributeError
deriving Repr, DecidableEq

mutual
/-- One step of `count_nodes` in `VdfsHandler._initialize_vfs`: the value of
`self._node_count` after processing one child, entering with counter `g`.
For a directory child, Python's `self._node_count += count_nodes(child)`
loads the old counter `g` first and then adds the value returned by the
recursive call (which is the counter after the subtree was processed). -/
def countNodeStep : VNode → Nat → Nat
  | .file _ _, g => g + 1
  | .dir _ kids, g => g + countChildren kids g
/-- The loop of `count_nodes` over a children list, threading
`self._node_count`. -/
def countChildren : List VNode → Nat → Nat
  | [], g => g
  | c :: cs, g => countChildren cs (countNodeStep c g)
end

/-- `VdfsHandler._initialize_vfs`: the cached `_node_count` computed once at
load time by `count_nodes(vfs.root)` starting from 0. -/
def initNodeCount (t : Tree) : Nat := countChildren t 0

mutual
/-- Number of file (non-directory) nodes in a subtree. -/
def fileCountNode : VNode → Nat
  | .file _ _ => 1
  | .dir _ kids => fileCountList kids
/-- Number of file (non-directory) nodes reachable from a sibling list. -/
def fileCountList : List VNode → Nat
  | [] => 0
  | c :: cs => fileCountNode c + fileCountList cs
end

mutual
/-- All nodes of a subtree in pre-order (the node itself first). -/
def allNodesNode : VNode → List VNode
  | .file n d => [.file n d]
  | .dir n kids => .dir n kids :: allNodesList kids
/-- All nodes reachable from a sibling list, in pre-order. -/
def allNodesList : List VNode → List VNode
  | [] => []
  | c :: cs => allNodesNode c ++ allNodesList cs
end

mutual
/-- The (name, payload) pairs of all file nodes of a subtree, in pre-order. -/
def filePairsNode : VNode → List (String × List Nat)
  | .file n d => [(n, d)]
  | .dir _ kids => filePairsList kids
/-- The (name, payload) pairs of all file nodes under a sibling list. -/
def filePairsList : List VNode → List (String × List Nat)
  | [] => []
  | c :: cs => filePairsNode c ++ filePairsList cs
end

mutual
/-- Names of all directory nodes of a subtree, in pre-order. -/
def dirNamesNode : VNode → List String
  | .file _ _ => []
  | .dir n kids => n :: dirNamesList kids
/-- Names of all directory nodes under a sibling list, in pre-order. -/
def dirNamesList : List VNode → List String
  | [] => []
  | c :: cs => dirNamesNode c ++ dirNamesList cs
end

/-- Names along the ancestor chain of a node path (root excluded). -/
def chainNames (t : Tree) : List Nat → List String
  | [] => []
  | i :: p =>
    match t[i]? with
    | none => []
    | some c => vname c :: chainNames (childrenOf c) p

/-- Python `str.lower()` (ASCII case mapping, which is what the archive
names use). -/
def lowerStr (s : String) : String :=
  String.mk (s.data.map Char.toLower)

/-- Python `str.upper()` (ASCII case mapping). -/
def upperStr (s : String) : String :=
  String.mk (s.data.map Char.toUpper)

/-- Python `c in s` for a single character. -/
def containsChar (s : String) (c : Char) : Bool :=
  s.data.contains c

/-- Python's substring test `needle in hay` on character lists. -/
def listIsSub (needle : List Char) : List Char → Bool
  | [] => needle.isEmpty
  | c :: rest => needle.isPrefixOf (c :: rest) || listIsSub needle rest

/-- Case-insensitive substring test `needle.lower() in hay.lower()`. -/
def substrCI (needle hay : String) : Bool :=
  listIsSub (lowerStr needle).data (lowerStr hay).data

/-- Splitting a character list on `/`. -/
def splitChars (cur : List Char) : List Char → List (List Char)
  | [] => [cur]
  | c :: rest => if c = '/' then cur :: splitChars [] rest else splitChars (cur ++ [c]) rest

/-- Segments of a slash-delimited internal path, as `pathlib.Path(...).parts`
yields them for the relative paths the handler works with: empty segments and
`.` components are dropped. -/
def splitPath (s : String) : List String :=
  ((splitChars [] s.data).map String.mk).filter (fun seg => seg != "" && seg != ".")

/-- The `exists` pre-check loop of `VdfsHandler._insert_dir` (run when the
final segment was found somewhere in the tree): walks the segments; at a
non-final segment it looks the segment up globally and asks the found node
for a child named like the next segment (`node.get_child(...)`); Python
crashes with `AttributeError` when that global lookup returns `None`.
Returns whether `exists` stayed 1. -/
def existsChain (t : Tree) : List String → Except Unit Bool
  | [] => .ok true
  | [part] => .ok (findList part t).isSome
  | part :: next :: more =>
    match findList part t with
    | none => .error ()
    | some np =>
      match nodeAtPath t np with
      | none => .ok false
      | some c =>
        if (childrenOf c).any (fun k => vname k = next) then existsChain t (next :: more)
        else .ok false

/-- The creation loop of `VdfsHandler._insert_dir` over the remaining path
segments; `f` is the recursive `_insert_dir` call made on the tail of the
path, `parent` is the (never reassigned) `parent` argument of the enclosing
call.  At a non-final missing segment a directory is created under `parent`
(or under the root) and `_insert_dir` is called on the tail — and then the
loop keeps walking; only the final segment produces the return value. -/
def creationLoopF
    (f : Tree → List String → Option (List Nat) → Tree × Except Unit (Option (List Nat)))
    (parent : Option (List Nat)) :
    Tree → List String → Tree × Except Unit (Option (List Nat))
  | t, [] => (t, .ok none)
  | t, [part] =>
    match findList part t with
    | none =>
      match parent with
      | none => (t ++ [.dir part []], .ok (some [t.length]))
      | some pp => (appendChildAt t pp (.dir part []), .ok (some (pp ++ [childCountAt t pp])))
    | some np => (t, .ok (some np))
  | t, part :: next :: more =>
    match findList part t with
    | none =>
      let step : Tree × List Nat :=
        match parent with
        | none => (t ++ [.dir part []], [t.length])
        | some pp => (appendChildAt t pp (.dir part []), pp ++ [childCountAt t pp])
      match f step.1 (next :: more) (some step.2) with
      | (t2, .error e) => (t2, .error e)
      | (t2, .ok _) => creationLoopF f parent t2 (next :: more)
    | some np =>
      match f t (next :: more) (some np) with
      | (t2, .error e) => (t2, .error e)
      | (t2, .ok _) => creationLoopF f parent t2 (next :: more)

/-- `VdfsHandler._insert_dir`, fuel-indexed so that the (terminating)
recursion on path tails is structural.  The error value models the
`AttributeError` the Python code can raise inside the `exists` pre-check;
with `fuel > parts.length` the fuel case is never reached.  First the final
segment is looked up globally (`path_tail`): if found and the path has one
segment, the node is returned when it is a direct root child, otherwise a
new root-level directory with that name is created; if found and the whole
chain exists, `path_tail` is returned; otherwise the creation loop runs. -/
def insertDirF : Nat → Tree → List String → Option (List Nat) → Tree × Except Unit (Option (List Nat))
  | 0, t, _, _ => (t, .error ())
  | fuel + 1, t, parts, parent =>
    let lastN := (parts.getLast?).getD ""
    match findList lastN t with
    | some pt =>
      if parts.length = 1 then
        if t.any (fun c => vname c = lastN) then (t, .ok (some pt))
        else (t ++ [.dir lastN []], .ok (some [t.length]))
      else
        match existsChain t parts with
        | .error e => (t, .error e)
        | .ok true => (t, .ok (some pt))
        | .ok false => creationLoopF (insertDirF fuel) parent t parts
    | none => creationLoopF (insertDirF fuel) parent t parts

/-- `VdfsHandler._insert_dir` with sufficient fuel: every recursive call is
on a strictly shorter segment list, so `parts.length + 1` always suffices. -/
def insertDir (t : Tree) (parts : List String) (parent : Option (List Nat)) :
    Tree × Except Unit (Option (List Nat)) :=
  insertDirF (parts.length + 1) t parts parent

/-- An entry of the host filesystem as `VdfsHandler._build_file_tree`
describes it: a file reference (base name and bytes) or a directory with its
entries in enumeration order. -/
inductive HostEntry where
  | hfile (name : String) (data : List Nat)
  | hdir (name : String) (children : List HostEntry)
deriving Repr

mutual
/-- `VdfsHandler._insert_recursive` on a single-entry `node_tree`
`{name: children}`: the name is looked up globally; if absent, a directory
with that name is created under `parent_node` (the root when `None`); then
the children are merged under the found-or-created node. -/
def insertRec (t : Tree) (parentNode : Option (List Nat)) : HostEntry → Tree
  | .hfile _ _ => t
  | .hdir treeName children =>
    match findList treeName t with
    | some p => insertRecChildren t p children
    | none =>
      let base := parentNode.getD []
      let p := base ++ [childCountAt t base]
      insertRecChildren (appendChildAt t base (.dir treeName [])) p children
/-- The child loop of `_insert_recursive`: a nested directory recurses with
the current node as `parent_node`; a file entry creates a file node named
with the host file's base name (case preserved) and its bytes. -/
def insertRecChildren (t : Tree) (p : List Nat) : List HostEntry → Tree
  | [] => t
  | .hfile n d :: rest => insertRecChildren (appendChildAt t p (.file n d)) p rest
  | .hdir n cs :: rest => insertRecChildren (insertRec t (some p) (.hdir n cs)) p rest
end

/-- Python falsiness of the optional `internal_path` argument (`None` or the
empty string). -/
def strFalsy : Option String → Bool
  | none => true
  | some v => v == ""

/-- Python falsiness of the optional `content` argument (`None` or empty
bytes). -/
def bytesFalsy : Option (List Nat) → Bool
  | none => true
  | some d => d.isEmpty

/-- The "current/root" internal-path sentinels of `VdfsHandler.insert_file`. -/
def dotLike (s : String) : Bool :=
  s == "." || s == "\\" || s == "/" || s == ".\\" || s == "./"

/-- `VdfsHandler.insert_file`.  The host filesystem argument `source` stands
for `source_path` (`none` models an absent/falsy source path); a returned
`attributeError` models the unhandled Python `AttributeError` raised when a
`None` parent is used or `_insert_dir`'s pre-check crashes. -/
def insertFile (t : Tree) (internal : Option String) (source : Option HostEntry)
    (content : Option (List Nat)) : Tree × Except PyErr (Option (List Nat)) :=
  match source with
  | none =>
    if strFalsy internal then (t, .error .valueError)
    else
      let ip := internal.getD ""
      if ¬ containsChar ip '.' then
        match insertDir t (splitPath ip) none with
        | (t1, .error _) => (t1, .error .attributeError)
        | (t1, .ok r) => (t1, .ok r)
      else if bytesFalsy content then (t, .error .valueError)
      else
        let payload := content.getD []
        if ¬ (splitPath ip).length > 1 then
          (t ++ [.file (upperStr ip) payload], .ok (some [t.length]))
        else
          match insertDir t (splitPath ip).dropLast none with
          | (t1, .error _) => (t1, .error .attributeError)
          | (t1, .ok none) => (t1, .error .attributeError)
          | (t1, .ok (some pp)) =>
            let nm := upperStr (((splitPath ip).getLast?).getD "")
            (appendChildAt t1 pp (.file nm payload), .ok (some (pp ++ [childCountAt t1 pp])))
  | some (.hdir dname dkids) =>
    if strFalsy internal || dotLike (internal.getD "") then
      (insertRec t none (.hdir dname dkids), .ok none)
    else
      match insertDir t (splitPath (internal.getD "")) none with
      | (t1, .error _) => (t1, .error .attributeError)
      | (t1, .ok r) => (insertRec t1 r (.hdir dname dkids), .ok none)
  | some (.hfile fname fdata) =>
    if strFalsy internal || dotLike (internal.getD "") then
      (t ++ [.file (upperStr fname) fdata], .ok (some [t.length]))
    else
      match insertDir t (splitPath (internal.getD "")) none with
      | (t1, .error _) => (t1, .error .attributeError)
      | (t1, .ok none) => (t1, .error .attributeError)
      | (t1, .ok (some pp)) =>
        (appendChildAt t1 pp (.file (upperStr fname) fdata), .ok (some (pp ++ [childCountAt t1 pp])))

/-- A host-filesystem effect performed during export: directory creation
(`mkdir(parents=True, exist_ok=True)`) or a file write, both on a path given
as components. -/
inductive FsAct where
  | mkdirp (p : List String)
  | writef (p : List String) (data : List Nat)
deriving Repr

/-- `destination or Path.cwd()`: an empty destination string is falsy and is
replaced by the current working directory. -/
def resolveDest (dest cwd : String) : String :=
  if dest = "" then cwd else dest

mutual
/-- `VdfsHandler._export_recursive` on one child: a directory is created on
the host and exported into, a file is written. -/
def exportRecNode (dest : List String) : VNode → List FsAct
  | .file n d => [.writef (dest ++ [n]) d]
  | .dir n kids => .mkdirp (dest ++ [n]) :: exportRecList (dest ++ [n]) kids
/-- `VdfsHandler._export_recursive` over a children list, mirroring the
directory structure under `dest`. -/
def exportRecList (dest : List String) : List VNode → List FsAct
  | [] => []
  | c :: cs => exportRecNode dest c ++ exportRecList dest cs
end

mutual
/-- The inner `traverse` of `VdfsHandler.export_file` on one child:
directories are descended into, files whose name contains the target
substring case-insensitively are written flat into the export directory. -/
def travNode (target : String) (dest : List String) : VNode → List FsAct
  | .file n d => if substrCI target n then [.writef (dest ++ [n]) d] else []
  | .dir _ kids => travList target dest kids
/-- The inner `traverse` of `export_file` over a children list. -/
def travList (target : String) (dest : List String) : List VNode → List FsAct
  | [] => []
  | c :: cs => travNode target dest c ++ travList target dest cs
end

/-- `VdfsHandler.export_file`: resolves the destination, creates it on the
host (parents included) and only then looks the name up; exact mode raises
`NodeNotFound` on a missing name and otherwise exports the found node
(recursively for a directory); wildcard mode runs `traverse` from the root.
Returns the trace of host-filesystem actions performed up to a raise,
together with the outcome. -/
def exportFile (t : Tree) (nodeName dest cwd : String) (allWithName : Bool) :
    List FsAct × Except PyErr Unit :=
  let d := resolveDest dest cwd
  let acts0 : List FsAct := [.mkdirp [d]]
  if allWithName then (acts0 ++ travList nodeName [d] t, .ok ())
  else
    match findList nodeName t with
    | none => (acts0, .error .nodeNotFound)
    | some np =>
      match nodeAtPath t np with
      | some (.dir _ kids) => (acts0 ++ exportRecList [d] kids, .ok ())
      | some (.file n dta) => (acts0 ++ [.writef [d, n] dta], .ok ())
      | none => (acts0, .ok ())

mutual
/-- Exact-mode removal of `VdfsHandler.remove_file` on one child: a
directory that survives has its children processed recursively
(`remove_file(file_name, node)`), files are kept as they are. -/
def removeExactNode (fname : String) : VNode → VNode
  | .file n d => .file n d
  | .dir n kids => .dir n (removeExactList fname kids)
/-- Exact-mode removal over a children list: a child (directory or file)
whose lower-cased name equals `file_name` verbatim is removed (a directory
without descending into it); any other directory is recursed into. -/
def removeExactList (fname : String) : List VNode → List VNode
  | [] => []
  | c :: rest =>
    if lowerStr (vname c) = fname then removeExactList fname rest
    else removeExactNode fname c :: removeExactList fname rest
end

mutual
/-- Wildcard-mode removal of `remove_file` on one child: directories are
always descended into, never removed. -/
def removeWildNode (fname : String) : VNode → VNode
  | .file n d => .file n d
  | .dir n kids => .dir n (removeWildList fname kids)
/-- Wildcard-mode removal over a children list: every file child whose name
contains the filter substring case-insensitively is removed. -/
def removeWildList (fname : String) : List VNode → List VNode
  | [] => []
  | c :: rest =>
    match c with
    | .file n d =>
      if substrCI fname n then removeWildList fname rest
      else .file n d :: removeWildList fname rest
    | .dir n kids => removeWildNode fname (.dir n kids) :: removeWildList fname rest
end

/-- `VdfsHandler.remove_file` (with the default `parent`, the root): exact
mode first requires the global lookup to succeed, raising `NodeNotFound`
otherwise; then the traversal removes matches everywhere.  Wildcard mode
traverses unconditionally.  Exceptions inside the traversal are caught and
logged by the Python code; the traversal itself is total here, so the try
block always succeeds. -/
def removeFile (t : Tree) (fname : String) (allWithName : Bool) : Except PyErr Tree :=
  if allWithName then .ok (removeWildList fname t)
  else
    match findList fname t with
    | none => .error .nodeNotFound
    | some _ => .ok (removeExactList fname t)

/-- Shift the first index of a node path by `k` (paths found in the right
part of an appended sibling list). -/
def shiftIdx (k : Nat) : List Nat → List Nat
  | [] => []
  | i :: r => (i + k) :: r

/-- The nested directory chain a fresh path resolution builds: one directory
per segment, each the sole child of the previous one. -/
def chainDir : String → List String → VNode
  | x, [] => .dir x []
  | x, y :: rest => .dir x [chainDir y rest]

/-- The chain as a sibling list (empty for the empty segment list). -/
def chainL : List String → List VNode
  | [] => []
  | x :: u => [chainDir x u]

/-- The root-level duplicate directory `_insert_dir` leaves behind for paths
of three or more fresh segments, named after the final segment. -/
def dupL (last : String) : Bool → List VNode
  | true => [.dir last []]
  | false => []

/-! Generic structural induction for the node/children-list tree and basic
facts about the path-addressed tree surgery. -/

theorem nodeInd (M1 : VNode → Prop) (M2 : List VNode → Prop)
    (h1 : ∀ n d, M1 (.file n d)) (h2 : ∀ n kids, M2 kids → M1 (.dir n kids))
    (h3 : M2 []) (h4 : ∀ c cs, M1 c → M2 cs → M2 (c :: cs)) :
    (∀ c, M1 c) ∧ (∀ t, M2 t) :=
  allNodesNode.mutual_induct M1 M2 h1 h2 h3 h4

theorem allNodesNode_eq (c : VNode) :
    allNodesNode c = c :: allNodesList (childrenOf c) := by
  cases c <;> simp [allNodesNode, childrenOf, allNodesList]

theorem updateAt_append (t : List VNode) (c : VNode) (f : VNode → VNode) :
    updateAt (t ++ [c]) t.length f = t ++ [f c] := by
  induction t with
  | nil => simp [updateAt]
  | cons d ds ih => simpa [updateAt] using ih

theorem appendChildAt_nil (t : Tree) (c : VNode) :
    appendChildAt t [] c = t ++ [c] := rfl

theorem modifyChildren_concat (t : Tree) (n : String) (kids : List VNode)
    (p : List Nat) (f : List VNode → List VNode) :
    modifyChildren (t ++ [.dir n kids]) (t.length :: p) f =
      t ++ [.dir n (modifyChildren kids p f)] := by
  simp [modifyChildren, updateAt_append]

theorem appendChildAt_concat (t : Tree) (n : String) (kids : List VNode)
    (p : List Nat) (c : VNode) :
    appendChildAt (t ++ [.dir n kids]) (t.length :: p) c =
      t ++ [.dir n (appendChildAt kids p c)] := by
  simp [appendChildAt, modifyChildren_concat]

theorem childrenAtPath_concat (t : Tree) (c : VNode) (p : List Nat) :
    childrenAtPath (t ++ [c]) (t.length :: p) = childrenAtPath (childrenOf c) p := by
  simp [childrenAtPath, List.getElem?_concat_length]

theorem nodeAtPath_concat_nil (t : Tree) (c : VNode) :
    nodeAtPath (t ++ [c]) [t.length] = some c := by
  simp [nodeAtPath, List.getElem?_concat_length]

theorem nodeAtPath_concat_cons (t : Tree) (c : VNode) (i : Nat) (p : List Nat) :
    nodeAtPath (t ++ [c]) (t.length :: i :: p) = nodeAtPath (childrenOf c) (i :: p) := by
  simp [nodeAtPath, List.getElem?_concat_length]

theorem chainNames_concat (t : Tree) (c : VNode) (p : List Nat) :
    chainNames (t ++ [c]) (t.length :: p) = vname c :: chainNames (childrenOf c) p := by
  simp [chainNames, List.getElem?_concat_length]

theorem shiftIdx_zero (p : List Nat) : shiftIdx 0 p = p := by
  cases p <;> simp [shiftIdx]

theorem bump_shiftIdx (k : Nat) (p : List Nat) :
    bump (shiftIdx k p) = shiftIdx (k + 1) p := by
  cases p <;> simp [bump, shiftIdx, Nat.add_assoc]

theorem findList_append (x : String) (t l : List VNode) :
    findList x (t ++ l) =
      match findList x t with
      | some p => some p
      | none => (findList x l).map (shiftIdx t.length) := by
  induction t with
  | nil =>
    cases h : findList x l <;> simp [findList, h, shiftIdx_zero]
  | cons c cs ih =>
    by_cases hx : vname c = x
    · simp [findList, hx]
    · cases hin : findInside x c with
      | some p => simp [findList, hx, hin]
      | none =>
        cases hcs : findList x cs with
        | some q => simp [findList, hx, hin, ih, hcs]
        | none =>
          cases hl : findList x l with
          | none => simp [findList, hx, hin, ih, hcs, hl]
          | some r =>
            simp [findList, hx, hin, ih, hcs, hl, bump_shiftIdx]

theorem findList_eq_none_iff (x : String) :
    ∀ t : List VNode, (findList x t = none ↔ ∀ c ∈ allNodesList t, vname c ≠ x) := by
  refine (nodeInd
    (fun nd => (findInside x nd = none ↔ ∀ c ∈ allNodesList (childrenOf nd), vname c ≠ x))
    (fun l => (findList x l = none ↔ ∀ c ∈ allNodesList l, vname c ≠ x))
    ?_ ?_ ?_ ?_).2
  · intro n d; simp [findInside, childrenOf, allNodesList]
  · intro n kids ih; simpa [findInside, childrenOf] using ih
  · simp [findList, allNodesList]
  · intro c cs ih1 ih2
    by_cases hx : vname c = x
    · simp [findList, hx, allNodesList, allNodesNode_eq]
    · cases hin : findInside x c with
      | some p =>
        simp only [findList, hx, if_false, hin]
        constructor
        · intro h; exact absurd h (by simp)
        · intro h
          exact absurd (ih1.mpr (by
            intro c' hc'
            exact h c' (by simp [allNodesList, allNodesNode_eq, hc']))) (by simp [hin])
      | none =>
        simp only [findList, hx, if_false, hin, Option.map_eq_none']
        rw [ih2]
        constructor
        · intro h c' hc'
          rcases List.mem_append.mp (by simpa [allNodesList] using hc') with h1 | h2
          · rcases (by simpa [allNodesNode_eq] using h1 : c' = c ∨ c' ∈ allNodesList (childrenOf c)) with rfl | h3
            · exact hx
            · exact (ih1.mp hin) c' h3
          · exact h c' h2
        · intro h c' hc'
          exact h c' (by simp [allNodesList, hc'])

/-! Claim C1: the cached file count.  `count_nodes` in `_initialize_vfs`
adds the already-accumulated counter back in whenever a directory child is
processed with a non-zero counter, so the cached count can exceed the number
of file nodes. -/

/-- Claim C1 (code bug): on an archive whose root has a file `F` followed by
a directory `D` containing a file `G`, the cached count computed at load
time is 3, while the tree has exactly 2 file (non-directory) nodes, so the
claimed invariant "cached file count = number of file nodes, for every tree
shape" fails on the code. -/
theorem claim_C1 :
    initNodeCount [.file "F" [1], .dir "D" [.file "G" [2]]] = 3 ∧
      fileCountList [.file "F" [1], .dir "D" [.file "G" [2]]] = 2 :=
  ⟨rfl, rfl⟩

/-! Claim C2: exact-mode removal.  The traversal compares
`node.name.lower() == file_name` without lowering `file_name`, so a child
whose name equals the given name is NOT removed when the given name contains
an upper-case letter. -/

/-- Claim C2 counterexample: the tree has a single file named `A`; the given
name `A` equals the child's name (so certainly equals it
case-insensitively), the global pre-check finds it, yet exact-mode removal
leaves the tree unchanged, because the code compares the lower-cased node
name `a` against the raw argument `A`. -/
theorem claim_C2_counterexample :
    removeFile [.file "A" [1]] "A" false = .ok [.file "A" [1]] ∧
      lowerStr "A" = lowerStr "A" :=
  ⟨rfl, rfl⟩

theorem removeExact_no_match (f : String) :
    ∀ t : List VNode, ∀ c ∈ allNodesList (removeExactList f t), lowerStr (vname c) ≠ f := by
  refine (nodeInd
    (fun nd => lowerStr (vname nd) ≠ f →
      ∀ c ∈ allNodesNode (removeExactNode f nd), lowerStr (vname c) ≠ f)
    (fun l => ∀ c ∈ allNodesList (removeExactList f l), lowerStr (vname c) ≠ f)
    ?_ ?_ ?_ ?_).2
  · intro n d hne c hc
    simp only [removeExactNode, allNodesNode, List.mem_singleton] at hc
    subst hc; exact hne
  · intro n kids ih hne c hc
    simp only [removeExactNode, allNodesNode, List.mem_cons] at hc
    rcases hc with rfl | hc
    · exact hne
    · exact ih c hc
  · intro c hc; simp [removeExactList, allNodesList] at hc
  · intro c cs ih1 ih2 c' hc'
    by_cases hm : lowerStr (vname c) = f
    · exact ih2 c' (by simpa [removeExactList, hm] using hc')
    · rcases List.mem_append.mp
        (by simpa [removeExactList, hm, allNodesList] using hc') with h1 | h2
      · exact ih1 hm c' h1
      · exact ih2 c' h2

/-- Claim C2 as amended: in exact mode `remove_file` raises `NodeNotFound`
exactly when the global lookup finds no node with the given name; otherwise
it removes, everywhere under the root, every child whose lower-cased name
equals the given name verbatim — matching a directory wholesale without
descending into it and recursing into the others — so after a successful
call no node anywhere in the tree has a lower-cased name equal to the given
string; the comparison is case-insensitive only when the given name is
already lower-case. -/
theorem claim_C2 :
    (∀ (t : Tree) (n : String),
      (removeFile t n false = .error .nodeNotFound ↔ ∀ c ∈ allNodesList t, vname c ≠ n)) ∧
    (∀ (t : Tree) (n : String) (t2 : Tree), removeFile t n false = .ok t2 →
      ∀ c ∈ allNodesList t2, lowerStr (vname c) ≠ n) := by
  constructor
  · intro t n
    have hiff := findList_eq_none_iff n t
    cases h : findList n t with
    | none =>
      constructor
      · intro _; exact hiff.mp h
      · intro _; simp [removeFile, h]
    | some p =>
      constructor
      · intro hco; simp [removeFile, h] at hco
      · intro hall; exact absurd (hiff.mpr hall) (by simp [h])
  · intro t n t2 hok
    cases h : findList n t with
    | none => simp [removeFile, h] at hok
    | some p =>
      have : t2 = removeExactList n t := by
        simpa [removeFile, h] using hok.symm
      subst this
      exact removeExact_no_match n t

/-- Witness for claim C2's amended theorem: a concrete run in which the
single lower-case match is removed and the resulting tree has no match
left. -/
theorem claim_C2_witness :
    removeFile [.file "a" [1], .dir "B" [.file "a" [2]]] "a" false = .ok [.dir "B" []] ∧
      (∀ c ∈ allNodesList [VNode.dir "B" []], lowerStr (vname c) ≠ "a") := by
  refine ⟨rfl, ?_⟩
  exact claim_C2.2 [.file "a" [1], .dir "B" [.file "a" [2]]] "a" [.dir "B" []] rfl

/-! Claim C8: wildcard-mode removal. -/

theorem dirNames_removeWild (f : String) :
    ∀ t : List VNode, dirNamesList (removeWildList f t) = dirNamesList t := by
  refine (nodeInd
    (fun nd => dirNamesList (removeWildList f (childrenOf nd)) = dirNamesList (childrenOf nd))
    (fun l => dirNamesList (removeWildList f l) = dirNamesList l) ?_ ?_ ?_ ?_).2
  · intro n d; simp [childrenOf, removeWildList]
  · intro n kids ih; simpa [childrenOf] using ih
  · simp [removeWildList]
  · intro c cs ih1 ih2
    cases c with
    | file n d =>
      by_cases hm : substrCI f n
      · simp [removeWildList, hm, dirNamesList, dirNamesNode, ih2]
      · simp [removeWildList, hm, dirNamesList, dirNamesNode, ih2]
    | dir n kids =>
      simp only [removeWildList, removeWildNode, dirNamesList, dirNamesNode, ih2,
        List.cons_append]
      simpa [childrenOf] using ih1

theorem filePairs_removeWild (f : String) :
    ∀ t : List VNode, filePairsList (removeWildList f t) =
      (filePairsList t).filter (fun q => ! substrCI f q.1) := by
  refine (nodeInd
    (fun nd => filePairsList (removeWildList f (childrenOf nd)) =
      (filePairsList (childrenOf nd)).filter (fun q => ! substrCI f q.1))
    (fun l => filePairsList (removeWildList f l) =
      (filePairsList l).filter (fun q => ! substrCI f q.1)) ?_ ?_ ?_ ?_).2
  · intro n d; simp [childrenOf, removeWildList, filePairsList]
  · intro n kids ih; simpa [childrenOf] using ih
  · simp [removeWildList, filePairsList]
  · intro c cs ih1 ih2
    cases c with
    | file n d =>
      by_cases hm : substrCI f n
      · simp [removeWildList, hm, filePairsList, filePairsNode, List.filter_cons, ih2]
      · simp [removeWildList, hm, filePairsList, filePairsNode, List.filter_cons, ih2]
    | dir n kids =>
      simp only [removeWildList, removeWildNode, filePairsList, filePairsNode,
        List.filter_append, ih2]
      have := ih1
      simp only [childrenOf] at this
      simp [this]

/-- Claim C8: wildcard-mode `remove_file` preserves every directory node (the
pre-order list of directory names is unchanged), removes exactly the file
nodes whose name contains the filter substring case-insensitively (the
pre-order list of file (name, payload) pairs is filtered accordingly), and on
the concrete scenario — three files inserted under the root from host names
`a1.txt`, `a2.txt`, `b.txt` (stored upper-cased by the single-file insertion
path) — removing `a` with the wildcard leaves exactly `B.TXT`. -/
theorem claim_C8 :
    (∀ (f : String) (t : Tree), dirNamesList (removeWildList f t) = dirNamesList t) ∧
    (∀ (f : String) (t : Tree), filePairsList (removeWildList f t) =
        (filePairsList t).filter (fun q => ! substrCI f q.1)) ∧
    removeFile
        ((insertFile
            ((insertFile
                ((insertFile [] (some "a1.txt") none (some [1])).1)
                (some "a2.txt") none (some [2])).1)
            (some "b.txt") none (some [3])).1)
        "a" true = .ok [.file "B.TXT" [3]] :=
  ⟨fun f t => dirNames_removeWild f t, fun f t => filePairs_removeWild f t, rfl⟩

/-! Claim C7: export by name. -/

theorem travList_eq (target : String) (dest : List String) :
    ∀ t : List VNode, travList target dest t =
      ((filePairsList t).filter (fun q => substrCI target q.1)).map
        (fun q => FsAct.writef (dest ++ [q.1]) q.2) := by
  refine (nodeInd
    (fun nd => travList target dest (childrenOf nd) =
      ((filePairsList (childrenOf nd)).filter (fun q => substrCI target q.1)).map
        (fun q => FsAct.writef (dest ++ [q.1]) q.2))
    (fun l => travList target dest l =
      ((filePairsList l).filter (fun q => substrCI target q.1)).map
        (fun q => FsAct.writef (dest ++ [q.1]) q.2)) ?_ ?_ ?_ ?_).2
  · intro n d; simp [childrenOf, travList, filePairsList]
  · intro n kids ih; simpa [childrenOf] using ih
  · simp [travList, filePairsList]
  · intro c cs ih1 ih2
    cases c with
    | file n d =>
      by_cases hm : substrCI target n
      · simp [travList, travNode, hm, filePairsList, filePairsNode, List.filter_cons, ih2]
      · simp [travList, travNode, hm, filePairsList, filePairsNode, List.filter_cons, ih2]
    | dir n kids =>
      simp only [travList, travNode, filePairsList, filePairsNode, List.filter_append,
        List.map_append, ih2]
      have := ih1
      simp only [childrenOf] at this
      simp [this]

/-- Claim C7: with `all_with_name=false`, `export_file` raises `NodeNotFound`
exactly when no node in the tree carries the given name; with
`all_with_name=true` it never raises and its host-filesystem trace is the
destination `mkdir` followed by exactly one flat write (directly in the
destination directory) for each file whose name contains the filter
substring case-insensitively, in pre-order. -/
theorem claim_C7 :
    (∀ (t : Tree) (n dest cwd : String),
      ((exportFile t n dest cwd false).2 = .error .nodeNotFound ↔
        ∀ c ∈ allNodesList t, vname c ≠ n)) ∧
    (∀ (t : Tree) (n dest cwd : String),
      (exportFile t n dest cwd true).2 = .ok () ∧
      (exportFile t n dest cwd true).1 =
        .mkdirp [resolveDest dest cwd] ::
          ((filePairsList t).filter (fun q => substrCI n q.1)).map
            (fun q => FsAct.writef ([resolveDest dest cwd] ++ [q.1]) q.2)) := by
  constructor
  · intro t n dest cwd
    have hiff := findList_eq_none_iff n t
    cases h : findList n t with
    | none => exact iff_of_true (by simp [exportFile, h]) (hiff.mp h)
    | some p =>
      constructor
      · intro hco
        cases hnp : nodeAtPath t p with
        | none => simp [exportFile, h, hnp] at hco
        | some c => cases c <;> simp [exportFile, h, hnp] at hco
      · intro hall; exact absurd (hiff.mpr hall) (by simp [h])
  · intro t n dest cwd
    refine ⟨by simp [exportFile], ?_⟩
    simp [exportFile, travList_eq]

/-! Claim C10: the destination directory is created before the lookup. -/

/-- Claim C10: `export_file` always begins its host-filesystem trace by
creating the resolved destination directory (the given destination, or the
current working directory when the destination is empty/falsy), and when
exact mode fails with `NodeNotFound` the trace is exactly that single
directory creation — so the destination directory exists even though no
file was written. -/
theorem claim_C10 :
    (∀ (t : Tree) (n dest cwd : String) (all : Bool),
      ((exportFile t n dest cwd all).1).head? = some (.mkdirp [resolveDest dest cwd])) ∧
    (∀ (t : Tree) (n dest cwd : String),
      (exportFile t n dest cwd false).2 = .error .nodeNotFound →
        (exportFile t n dest cwd false).1 = [.mkdirp [resolveDest dest cwd]]) ∧
    (∀ cwd : String, resolveDest "" cwd = cwd) := by
  refine ⟨?_, ?_, ?_⟩
  · intro t n dest cwd all
    cases all with
    | true => simp [exportFile]
    | false =>
      cases h : findList n t with
      | none => simp [exportFile, h]
      | some p =>
        cases hnp : nodeAtPath t p with
        | none => simp [exportFile, h, hnp]
        | some c => cases c <;> simp [exportFile, h, hnp]
  · intro t n dest cwd herr
    cases h : findList n t with
    | none => simp [exportFile, h]
    | some p =>
      cases hnp : nodeAtPath t p with
      | none => simp [exportFile, h, hnp] at herr
      | some c => cases c <;> simp [exportFile, h, hnp] at herr
  · intro cwd; simp [resolveDest]

/-- Witness for claim C10: on the empty tree an exact-mode export of a
missing name fails, yet the trace still holds the destination creation. -/
theorem claim_C10_witness :
    (exportFile [] "missing" "out" "cw" false).1 = [.mkdirp ["out"]] :=
  claim_C10.2.1 [] "missing" "out" "cw" rfl

/-! Claim C9: the ValueError preconditions of `insert_file`. -/

/-- Claim C9 counterexample: with `internal_path="a.b"` and `content=b""`
the content argument is present (not absent), yet `insert_file` raises
`ValueError`, because Python's `if not content` also treats present-but-empty
bytes as missing; so the claim's "exactly two cases, (2) ... content is
absent" does not hold as stated.  The tree is left unchanged. -/
theorem claim_C9_counterexample :
    (insertFile [] (some "a.b") none (some [])).2 = .error .valueError ∧
      (insertFile [] (some "a.b") none (some [])).1 = [] :=
  ⟨rfl, rfl⟩

/-- Claim C9 as amended: `insert_file` raises `ValueError` exactly when
`source_path` is falsy (absent) and either (1) `internal_path` is falsy
(absent or the empty string), or (2) `internal_path` contains a `.` and
`content` is falsy (absent or empty bytes); in every such case the tree is
returned unchanged and no node is created or resolved. -/
theorem claim_C9 : ∀ (t : Tree) (internal : Option String) (source : Option HostEntry)
    (content : Option (List Nat)),
    ((insertFile t internal source content).2 = .error .valueError ↔
      (source = none ∧
        (strFalsy internal ||
          (containsChar (internal.getD "") '.' && bytesFalsy content)) = true)) ∧
    ((insertFile t internal source content).2 = .error .valueError →
      (insertFile t internal source content).1 = t) := by
  intro t internal source content
  cases source with
  | none =>
    by_cases h1 : strFalsy internal
    · constructor
      · simp [insertFile, h1]
      · intro _; simp [insertFile, h1]
    · by_cases h2 : containsChar (internal.getD "") '.'
      · by_cases h3 : bytesFalsy content
        · constructor
          · simp [insertFile, h1, h2, h3]
          · intro _; simp [insertFile, h1, h2, h3]
        · by_cases h4 : (splitPath (internal.getD "")).length > 1
          · rcases hid : insertDir t (splitPath (internal.getD "")).dropLast none with ⟨t1, r1⟩
            cases r1 with
            | error e => simp [insertFile, h1, h2, h3, h4, hid]
            | ok r =>
              cases r with
              | none => simp [insertFile, h1, h2, h3, h4, hid]
              | some pp => simp [insertFile, h1, h2, h3, h4, hid]
          · simp [insertFile, h1, h2, h3, h4]
      · rcases hid : insertDir t (splitPath (internal.getD "")) none with ⟨t1, r1⟩
        cases r1 with
        | error e => simp [insertFile, h1, h2, hid]
        | ok r => simp [insertFile, h1, h2, hid]
  | some h =>
    cases h with
    | hdir dname dkids =>
      by_cases h1 : (strFalsy internal || dotLike (internal.getD "")) = true
      · simp [insertFile, h1]
      · rcases hid : insertDir t (splitPath (internal.getD "")) none with ⟨t1, r1⟩
        cases r1 with
        | error e => simp [insertFile, h1, hid]
        | ok r => simp [insertFile, h1, hid]
    | hfile fname fdata =>
      by_cases h1 : (strFalsy internal || dotLike (internal.getD "")) = true
      · simp [insertFile, h1]
      · rcases hid : insertDir t (splitPath (internal.getD "")) none with ⟨t1, r1⟩
        cases r1 with
        | error e => simp [insertFile, h1, hid]
        | ok r =>
          cases r with
          | none => simp [insertFile, h1, hid]
          | some pp => simp [insertFile, h1, hid]

/-- Witness for claim C9's amended theorem: the concrete raising run with
present-but-empty content, derived from the amended equivalence. -/
theorem claim_C9_witness :
    (insertFile [] (some "x.y") none (some [])).2 = .error .valueError ∧
      (insertFile [] (some "x.y") none (some [])).1 = [] := by
  have h := claim_C9 [] (some "x.y") none (some [])
  exact ⟨h.1.mpr ⟨rfl, by decide⟩, h.2 (h.1.mpr ⟨rfl, by decide⟩)⟩

/-! Claim C5: single-file insertion with an internal path. -/

/-- Claim C5 counterexample: with empty byte content `insert_file` on
`a/b/file.txt` raises `ValueError` instead of creating the nodes, because
`if not content` treats empty bytes as missing; the claim as stated (for
arbitrary content X) therefore fails at X = b"". -/
theorem claim_C5_counterexample :
    insertFile [] (some "a/b/file.txt") none (some []) = ([], .error .valueError) :=
  rfl

/-- Claim C5 as amended: on an empty tree, `insert_file` with internal path
`a/b/file.txt` and nonempty content X creates directory nodes `a` and `b`
and a file node `FILE.TXT` (final segment upper-cased) with payload X,
reachable by descending root → a → b → FILE.TXT, and returns that file
node; with empty content it raises ValueError instead. -/
theorem claim_C5 (X : List Nat) (h : X ≠ []) :
    insertFile [] (some "a/b/file.txt") none (some X) =
      ([.dir "a" [.dir "b" [.file "FILE.TXT" X]]], .ok (some [0, 0, 0])) ∧
    nodeAtPath [.dir "a" [.dir "b" [.file "FILE.TXT" X]]] [0, 0, 0] =
      some (.file "FILE.TXT" X) := by
  cases X with
  | nil => exact absurd rfl h
  | cons x xs => exact ⟨rfl, rfl⟩

/-- Witness for claim C5's amended theorem at the concrete payload [1]. -/
theorem claim_C5_witness :
    insertFile [] (some "a/b/file.txt") none (some [1]) =
      ([.dir "a" [.dir "b" [.file "FILE.TXT" [1]]]], .ok (some [0, 0, 0])) ∧
    nodeAtPath [.dir "a" [.dir "b" [.file "FILE.TXT" [1]]]] [0, 0, 0] =
      some (.file "FILE.TXT" [1]) :=
  claim_C5 [1] (by decide)

/-! Claim C6: host-directory merge preserves file-name case. -/

theorem childCountAt_root (t : Tree) : childCountAt t [] = t.length := rfl

/-- Claim C6: merging a host tree entry creates, for a file entry, a file
node under the current tree directory whose name is the host file's name
with its original case preserved and whose payload is the host file's bytes
(shown by the explicit resulting tree for a fresh directory with one file
entry); by contrast, the single-file insertion path of `insert_file` stores
the upper-cased host name. -/
theorem claim_C6 :
    (∀ (t : Tree) (dname fname : String) (data : List Nat),
      findList dname t = none →
        insertRec t none (.hdir dname [.hfile fname data]) =
          t ++ [.dir dname [.file fname data]]) ∧
    (∀ (t : Tree) (fname : String) (data : List Nat),
      insertFile t none (some (.hfile fname data)) none =
        (t ++ [.file (upperStr fname) data], .ok (some [t.length]))) := by
  constructor
  · intro t dname fname data hf
    simp only [insertRec, hf, Option.getD_none, childCountAt_root, appendChildAt_nil,
      insertRecChildren, List.nil_append]
    rw [appendChildAt_concat]
    simp [appendChildAt_nil]
  · intro t fname data
    rfl

/-- Witness for claim C6: concrete merge of `src/x.txt` keeps the
lower-case name, while the single-file path upper-cases `y.txt`. -/
theorem claim_C6_witness :
    insertRec [] none (.hdir "src" [.hfile "x.txt" [7]]) =
        [.dir "src" [.file "x.txt" [7]]] ∧
      insertFile [] none (some (.hfile "y.txt" [8])) none =
        ([.file "Y.TXT" [8]], .ok (some [0])) :=
  ⟨claim_C6.1 [] "src" "x.txt" [7] rfl, claim_C6.2 [] "y.txt" [8]⟩

/-! Claim C3: directory-path resolution on fresh segments. -/

/-- Claim C3 counterexample: on an empty tree, `_insert_dir` on the fresh
three-segment path `a/b/c` creates FOUR directory nodes — the chain
`a → b → c` plus a spurious empty root-level directory also named `c`
(created by the stray single-segment recursive call) — not one per segment;
and on `a/a` (two segments, names fresh in the tree) it creates a single
directory and returns a node whose ancestor chain is `[a]`, not
`[a, a]`. -/
theorem claim_C3_counterexample :
    insertDir [] ["a", "b", "c"] none =
        ([.dir "a" [.dir "b" [.dir "c" []]], .dir "c" []], .ok (some [0, 0, 0])) ∧
      (dirNamesList [.dir "a" [.dir "b" [.dir "c" []]], .dir "c" []]).length = 4 ∧
      insertDir [] ["a", "a"] none = ([.dir "a" []], .ok (some [0])) ∧
      chainNames [.dir "a" []] [0] = ["a"] :=
  ⟨rfl, rfl, rfl, rfl⟩

/-- Claim C3 as amended: for a two-segment internal path with distinct
segment names, neither of which names any node of the tree, `_insert_dir`
creates exactly one new directory node per segment, the second nested under
the first, which is appended at the root, and returns the final node, whose
ancestor chain's names equal the path segments in order.  (For three or
more fresh segments the code additionally creates a spurious root-level
directory named after the final segment, and for repeated segment names it
collapses the chain, per the counterexample.) -/
theorem claim_C3 (t : Tree) (a b : String) (hab : a ≠ b)
    (ha : findList a t = none) (hb : findList b t = none) :
    insertDir t [a, b] none = (t ++ [.dir a [.dir b []]], .ok (some [t.length, 0])) ∧
    chainNames (t ++ [.dir a [.dir b []]]) [t.length, 0] = [a, b] := by
  have hb1 : findList b (t ++ [.dir a []]) = none := by
    rw [findList_append, hb]
    simp [findList, findInside, vname, hab]
  have hb2 : findList b (t ++ [.dir a [.dir b []]]) = some [t.length, 0] := by
    rw [findList_append, hb]
    simp [findList, findInside, vname, hab, shiftIdx]
  have hcc : childCountAt (t ++ [.dir a []]) [t.length] = 0 := by
    simp [childCountAt, childrenAtPath_concat, childrenAtPath, childrenOf]
  have hl2 : ((([a, b] : List String).getLast?).getD "") = b := rfl
  have hl1 : ((([b] : List String).getLast?).getD "") = b := rfl
  constructor
  · show insertDirF 3 t [a, b] none = _
    simp only [insertDirF, hl2, hl1, hb, creationLoopF, ha,
      hb1, hb2, hcc, appendChildAt_concat, appendChildAt_nil, List.nil_append]
  · simp [chainNames_concat, chainNames, childrenOf, vname]

/-- Witness for claim C3's amended theorem on the empty tree with segments
`a` and `b`. -/
theorem claim_C3_witness :
    insertDir [] ["a", "b"] none = ([.dir "a" [.dir "b" []]], .ok (some [0, 0])) ∧
      chainNames [.dir "a" [.dir "b" []]] [0, 0] = ["a", "b"] :=
  claim_C3 [] "a" "b" (by decide) rfl rfl

/-! Lemmas for claim C4: the shape of the tree `_insert_dir` builds when it
resolves a fresh, duplicate-free path, and the behaviour of a second
resolution of the same path. -/

theorem chainDir_eq (x : String) (u : List String) :
    chainDir x u = .dir x (chainL u) := by
  cases u <;> rfl

theorem appendChildAt_cons_zero (n : String) (kids : List VNode) (p : List Nat) (v : VNode) :
    appendChildAt [VNode.dir n kids] (0 :: p) v = [VNode.dir n (appendChildAt kids p v)] :=
  rfl


theorem findList_single_dir (z n : String) (kids : List VNode) (hn : ¬ (n = z)) :
    findList z [VNode.dir n kids] = (findList z kids).map (fun p => 0 :: p) := by
  cases h : findList z kids <;> simp [findList, findInside, vname, hn, h]

theorem nodeAtPath_single_dir (n : String) (kids : List VNode) (i : Nat) (p : List Nat) :
    nodeAtPath [VNode.dir n kids] (0 :: i :: p) = nodeAtPath kids (i :: p) := by
  simp [nodeAtPath, childrenOf]

theorem childrenAtPath_single_dir (n : String) (kids : List VNode) (p : List Nat) :
    childrenAtPath [VNode.dir n kids] (0 :: p) = childrenAtPath kids p := by
  simp [childrenAtPath, childrenOf]

theorem updateAt_self_length : ∀ (l : List VNode) (f : VNode → VNode),
    updateAt l l.length f = l := by
  intro l f
  induction l with
  | nil => rfl
  | cons c cs ih => simpa [updateAt] using ih

theorem chainL_find_none (z : String) :
    ∀ l : List String, z ∉ l → findList z (chainL l) = none := by
  intro l
  induction l with
  | nil => intro _; rfl
  | cons x u ih =>
    intro hz
    have hzx : ¬ (x = z) := fun h => hz (h ▸ List.mem_cons_self x u)
    have hzu : z ∉ u := fun h => hz (List.mem_cons_of_mem x h)
    rw [show chainL (x :: u) = [VNode.dir x (chainL u)] from by rw [chainL, chainDir_eq]]
    rw [findList_single_dir z x (chainL u) hzx, ih hzu]
    rfl

theorem chainL_find_decomp (z : String) :
    ∀ (pre suf : List String), (pre ++ z :: suf).Nodup →
      findList z (chainL (pre ++ z :: suf)) = some (List.replicate (pre.length + 1) 0) ∧
      nodeAtPath (chainL (pre ++ z :: suf)) (List.replicate (pre.length + 1) 0) =
        some (chainDir z suf) := by
  intro pre
  induction pre with
  | nil =>
    intro suf _
    simp only [List.nil_append, List.length_nil, Nat.zero_add]
    refine ⟨?_, ?_⟩
    · rw [show chainL (z :: suf) = [VNode.dir z (chainL suf)] from by rw [chainL, chainDir_eq]]
      simp [findList, vname, List.replicate]
    · rfl
  | cons w pre2 ih =>
    intro suf hnd
    have hnd0 : (w :: (pre2 ++ z :: suf)).Nodup := by simpa using hnd
    have hwm : w ∉ pre2 ++ z :: suf := (List.nodup_cons.mp hnd0).1
    have hwz : ¬ (w = z) := fun h => hwm (h ▸ (by simp : z ∈ pre2 ++ z :: suf))
    have hnd2 : (pre2 ++ z :: suf).Nodup := (List.nodup_cons.mp hnd0).2
    obtain ⟨hf, hn⟩ := ih suf hnd2
    have hchain : chainL ((w :: pre2) ++ z :: suf) =
        [VNode.dir w (chainL (pre2 ++ z :: suf))] := by
      rw [List.cons_append, chainL, chainDir_eq]
    refine ⟨?_, ?_⟩
    · rw [hchain, findList_single_dir z w _ hwz, hf]
      simp [List.replicate_succ]
    · rw [hchain, List.length_cons, List.replicate_succ, List.replicate_succ,
        nodeAtPath_single_dir]
      rw [List.replicate_succ] at hn
      exact hn

theorem chainL_extend (z : String) :
    ∀ pre : List String, pre ≠ [] →
      appendChildAt (chainL pre) (List.replicate pre.length 0) (.dir z []) =
        chainL (pre ++ [z]) := by
  intro pre
  induction pre with
  | nil => intro h; exact absurd rfl h
  | cons x pre2 ih =>
    intro _
    cases pre2 with
    | nil =>
      show appendChildAt [VNode.dir x []] [0] (.dir z []) = [VNode.dir x [VNode.dir z []]]
      rfl
    | cons y r =>
      have hih := ih (by simp)
      rw [show chainL (x :: y :: r) = [VNode.dir x (chainL (y :: r))] from by
        rw [chainL, chainDir_eq]]
      rw [List.length_cons, List.replicate_succ, appendChildAt_cons_zero, hih]
      rw [show chainL ((x :: y :: r) ++ [z]) =
        [VNode.dir x (chainL ((y :: r) ++ [z]))] from by rw [List.cons_append, chainL, chainDir_eq]]

theorem chainL_tip_children :
    ∀ pre : List String, pre ≠ [] →
      childrenAtPath (chainL pre) (List.replicate pre.length 0) = some [] := by
  intro pre
  induction pre with
  | nil => intro h; exact absurd rfl h
  | cons x pre2 ih =>
    intro _
    rw [show chainL (x :: pre2) = [VNode.dir x (chainL pre2)] from by rw [chainL, chainDir_eq]]
    rw [List.length_cons, List.replicate_succ, childrenAtPath_single_dir]
    cases pre2 with
    | nil => rfl
    | cons y r => exact ih (by simp)

theorem updateAt_pref (t0 l : List VNode) (f : VNode → VNode) :
    updateAt (t0 ++ l) t0.length f = t0 ++ updateAt l 0 f := by
  induction t0 with
  | nil => rfl
  | cons c cs ih => simpa [updateAt] using ih

theorem modifyChildren_pref (t0 l : List VNode) (p : List Nat) (f : List VNode → List VNode) :
    modifyChildren (t0 ++ l) (t0.length :: p) f = t0 ++ modifyChildren l (0 :: p) f := by
  show updateAt (t0 ++ l) t0.length _ = t0 ++ updateAt l 0 _
  exact updateAt_pref t0 l _

theorem appendChildAt_pref (t0 l : List VNode) (p : List Nat) (c : VNode) :
    appendChildAt (t0 ++ l) (t0.length :: p) c = t0 ++ appendChildAt l (0 :: p) c :=
  modifyChildren_pref t0 l p _

theorem getElem?_append_len (t0 l : List VNode) : (t0 ++ l)[t0.length]? = l[0]? := by
  rw [List.getElem?_append_right (Nat.le_refl _)]
  simp

theorem nodeAtPath_pref (t0 l : List VNode) (p : List Nat) :
    nodeAtPath (t0 ++ l) (t0.length :: p) = nodeAtPath l (0 :: p) := by
  simp only [nodeAtPath, getElem?_append_len]

theorem childrenAtPath_pref (t0 l : List VNode) (p : List Nat) :
    childrenAtPath (t0 ++ l) (t0.length :: p) = childrenAtPath l (0 :: p) := by
  simp only [childrenAtPath, getElem?_append_len]

theorem findList_cons_extend (z : String) (c : VNode) (q : List Nat) (l : List VNode)
    (h : findList z [c] = some q) : findList z (c :: l) = some q := by
  by_cases hx : vname c = z
  · simp only [findList, hx, if_true] at h ⊢
    exact h
  · cases hin : findInside z c with
    | some p =>
      simp only [findList, hx, if_false, hin] at h ⊢
      exact h
    | none => simp [findList, hx, hin] at h

theorem mem_allNodesList {c : VNode} :
    ∀ {l : List VNode}, c ∈ l → c ∈ allNodesList l := by
  intro l
  induction l with
  | nil => intro h; cases h
  | cons d ds ih =>
    intro h
    rcases List.mem_cons.mp h with rfl | h2
    · simp [allNodesList, allNodesNode_eq]
    · simp only [allNodesList, List.mem_append]
      exact Or.inr (ih h2)

theorem any_vname_false (z : String) (l : List VNode) (h : findList z l = none) :
    (l.any (fun c => decide (vname c = z))) = false := by
  have hall := (findList_eq_none_iff z l).mp h
  simp only [List.any_eq_false, decide_eq_true_eq]
  intro c hc
  exact hall c (mem_allNodesList hc)

theorem nodeAtPath_cons_zero (c : VNode) (l : List VNode) (p : List Nat) :
    nodeAtPath (c :: l) (0 :: p) = nodeAtPath [c] (0 :: p) := by
  cases p <;> simp [nodeAtPath]

theorem find_in_full (t0 : Tree) (z : String) (pre suf : List String) (extra : List VNode)
    (hnd : (pre ++ z :: suf).Nodup) (hf : findList z t0 = none) :
    findList z (t0 ++ (chainL (pre ++ z :: suf) ++ extra)) =
      some (t0.length :: List.replicate pre.length 0) := by
  have hch := (chainL_find_decomp z pre suf hnd).1
  rw [findList_append, hf]
  cases hs : pre ++ z :: suf with
  | nil => exact absurd hs (by simp)
  | cons a l =>
    rw [hs] at hch
    have hone : findList z [chainDir a l] = some (List.replicate (pre.length + 1) 0) := by
      simpa [chainL] using hch
    have hext : findList z (chainDir a l :: extra) =
        some (List.replicate (pre.length + 1) 0) :=
      findList_cons_extend z _ _ extra hone
    rw [show chainL (a :: l) ++ extra = chainDir a l :: extra from by simp [chainL]]
    rw [hext]
    simp [shiftIdx, List.replicate_succ]

theorem node_in_full (t0 : Tree) (z : String) (pre suf : List String) (extra : List VNode)
    (hnd : (pre ++ z :: suf).Nodup) :
    nodeAtPath (t0 ++ (chainL (pre ++ z :: suf) ++ extra))
        (t0.length :: List.replicate pre.length 0) = some (chainDir z suf) := by
  have hch := (chainL_find_decomp z pre suf hnd).2
  rw [nodeAtPath_pref]
  cases hs : pre ++ z :: suf with
  | nil => exact absurd hs (by simp)
  | cons a l =>
    rw [hs] at hch
    rw [show chainL (a :: l) ++ extra = chainDir a l :: extra from by simp [chainL]]
    rw [nodeAtPath_cons_zero]
    have : (0 : Nat) :: List.replicate pre.length 0 = List.replicate (pre.length + 1) 0 := by
      simp [List.replicate_succ]
    rw [this]
    simpa [chainL] using hch

theorem existsChain_full (t0 : Tree) (s : List String) (extra : List VNode)
    (hnd : s.Nodup) (hf : ∀ z ∈ s, findList z t0 = none) :
    ∀ suf pre, s = pre ++ suf → suf ≠ [] →
      existsChain (t0 ++ (chainL s ++ extra)) suf = .ok true := by
  intro suf
  induction suf with
  | nil => intro pre _ h; exact absurd rfl h
  | cons z rest ih =>
    intro pre hs _
    have hznd : (pre ++ z :: rest).Nodup := hs ▸ hnd
    have hzf : findList z t0 = none := hf z (by rw [hs]; simp)
    cases rest with
    | nil =>
      have hfind := find_in_full t0 z pre [] extra (by rw [← hs]; exact hnd) hzf
      rw [← hs] at hfind
      simp [existsChain, hfind]
    | cons w more =>
      have hfind := find_in_full t0 z pre (w :: more) extra hznd hzf
      have hnode := node_in_full t0 z pre (w :: more) extra hznd
      rw [← hs] at hfind hnode
      have hany : (childrenOf (chainDir z (w :: more))).any
          (fun k => decide (vname k = w)) = true := by
        have h1 : childrenOf (chainDir z (w :: more)) = [chainDir w more] := rfl
        rw [h1]
        simp [chainDir_eq, vname]
      simp only [existsChain, hfind, hnode, hany, if_true]
      exact ih (pre ++ [z]) (by rw [hs]; simp) (by simp)

theorem find_fresh_pre (t0 : Tree) (pre : List String) (z : String)
    (hz : z ∉ pre) (hf : findList z t0 = none) :
    findList z (t0 ++ chainL pre) = none := by
  rw [findList_append, hf, chainL_find_none z pre hz]
  rfl

theorem find_last_full (t0 : Tree) (s : List String) (extra : List VNode) (z : String)
    (hz : s.getLast? = some z) (hnd : s.Nodup) (hf : findList z t0 = none) :
    findList z (t0 ++ (chainL s ++ extra)) =
      some (t0.length :: List.replicate (s.length - 1) 0) := by
  have hs0 : s ≠ [] := by intro h; rw [h] at hz; cases hz
  have hzl : s.getLast hs0 = z := by
    have := List.getLast?_eq_getLast s hs0
    rw [hz] at this
    exact (Option.some_injective _ this.symm)
  have hdec : s.dropLast ++ z :: [] = s := by
    rw [← hzl]
    simpa using List.dropLast_append_getLast hs0
  have h1 := find_in_full t0 z s.dropLast [] extra (by rw [hdec]; exact hnd) hf
  rw [hdec] at h1
  rw [List.length_dropLast] at h1
  exact h1

theorem insertDirF_exists_return (t0 : Tree) (s : List String) (extra : List VNode)
    (hnd : s.Nodup) (hf : ∀ x ∈ s, findList x t0 = none)
    (fuel : Nat) (parent : Option (List Nat)) (pre suf : List String) (z : String)
    (hs : s = pre ++ suf) (hz : suf.getLast? = some z) (h2 : 2 ≤ suf.length)
    (hfuel : 0 < fuel) :
    insertDirF fuel (t0 ++ (chainL s ++ extra)) suf parent =
      (t0 ++ (chainL s ++ extra),
        .ok (some (t0.length :: List.replicate (s.length - 1) 0))) := by
  cases fuel with
  | zero => omega
  | succ f =>
    have hsuf0 : suf ≠ [] := by intro h; rw [h] at hz; cases hz
    have hzs : s.getLast? = some z := by
      rw [hs, List.getLast?_append, hz]; rfl
    have hzmem : z ∈ s := by
      have hs0 : s ≠ [] := by intro h; rw [h] at hzs; cases hzs
      have := List.getLast?_eq_getLast s hs0
      rw [hzs] at this
      rw [Option.some_injective _ this]
      exact List.getLast_mem hs0
    have hfind := find_last_full t0 s extra z hzs hnd (hf z hzmem)
    have hg : ((suf.getLast?).getD "") = z := by rw [hz]; rfl
    have hne1 : ¬ (suf.length = 1) := by omega
    have hex := existsChain_full t0 s extra hnd hf suf pre hs hsuf0
    simp only [insertDirF, hg, hfind, hne1, if_false, hex]

theorem insertDirF_single_existing (t0 : Tree) (s : List String) (d : Bool) (z : String)
    (hz : s.getLast? = some z)
    (hnd : s.Nodup) (hf : ∀ x ∈ s, findList x t0 = none)
    (fuel : Nat) (hfuel : 0 < fuel) (parent : Option (List Nat))
    (h2 : 2 ≤ s.length) :
    ∃ r, insertDirF fuel (t0 ++ (chainL s ++ dupL z d)) [z] parent =
      (t0 ++ (chainL s ++ dupL z true), .ok r) := by
  cases fuel with
  | zero => omega
  | succ f =>
    have hs0 : s ≠ [] := by intro h; rw [h] at hz; cases hz
    have hzmem : z ∈ s := by
      have h1 := List.getLast?_eq_getLast s hs0
      rw [hz] at h1
      rw [Option.some_injective _ h1]
      exact List.getLast_mem hs0
    have hfind := find_last_full t0 s (dupL z d) z hz hnd (hf z hzmem)
    have hg : ((([z] : List String).getLast?).getD "") = z := rfl
    cases d with
    | true =>
      have hany : ((t0 ++ (chainL s ++ dupL z true)).any
          (fun c => decide (vname c = z))) = true := by
        simp [dupL, List.any_append, vname]
      refine ⟨some (t0.length :: List.replicate (s.length - 1) 0), ?_⟩
      simp only [insertDirF, hg, hfind]
      simp [hany]
    | false =>
      have hanyT : ((t0 ++ (chainL s ++ dupL z false)).any
          (fun c => decide (vname c = z))) = false := by
        have h0 := any_vname_false z t0 (hf z hzmem)
        cases hsx : s with
        | nil => exact absurd hsx hs0
        | cons x u =>
          subst hsx
          have hu0 : u ≠ [] := by
            intro h; rw [h] at h2; simp at h2
          have hzu : z ∈ u := by
            have h1 := List.getLast?_eq_getLast (x :: u) (by simp)
            rw [hz] at h1
            have h3 : z = (x :: u).getLast (by simp) := Option.some_injective _ h1
            rw [List.getLast_cons hu0] at h3
            rw [h3]
            exact List.getLast_mem hu0
          have hxu : x ∉ u := (List.nodup_cons.mp hnd).1
          have hxz : ¬ (vname (chainDir x u) = z) := by
            rw [chainDir_eq]
            show ¬ (x = z)
            exact fun h => hxu (h ▸ hzu)
          simp [List.any_append, h0, chainL, hxz, dupL]
      refine ⟨some [(t0 ++ (chainL s ++ dupL z false)).length], ?_⟩
      simp only [insertDirF, hg, hfind]
      simp only [List.length_cons, List.length_nil]
      have h4 := hanyT
      simp only [dupL, List.append_nil, List.any_append, Bool.or_eq_false_iff,
        List.any_eq_false, decide_eq_true_eq] at h4
      simp [dupL, List.append_assoc]
      exact ⟨h4.1, h4.2⟩

theorem getLast?_suffix (pre L : List String) (z : String) (hL : L ≠ [])
    (h : (pre ++ L).getLast? = some z) : L.getLast? = some z := by
  rw [List.getLast?_append] at h
  cases hL2 : L.getLast? with
  | none => rw [List.getLast?_eq_getLast L hL] at hL2; cases hL2
  | some v => rw [hL2] at h; simpa using h

theorem creationLoopF_single_some
    (f : Tree → List String → Option (List Nat) → Tree × Except Unit (Option (List Nat)))
    (parent : Option (List Nat)) (t : Tree) (part : String) (np : List Nat)
    (hfind : findList part t = some np) :
    creationLoopF f parent t [part] = (t, .ok (some np)) := by
  simp only [creationLoopF, hfind]

theorem creationLoopF_cons_some
    (f : Tree → List String → Option (List Nat) → Tree × Except Unit (Option (List Nat)))
    (parent : Option (List Nat)) (t : Tree) (w v : String) (more : List String)
    (np : List Nat) (hfind : findList w t = some np) :
    creationLoopF f parent t (w :: v :: more) =
      match f t (v :: more) (some np) with
      | (t2, Except.error e) => (t2, Except.error e)
      | (t2, Except.ok _) => creationLoopF f parent t2 (v :: more) := by
  simp only [creationLoopF, hfind]

theorem walk_full (t0 : Tree) (s : List String) (z : String)
    (hzs : s.getLast? = some z)
    (hnd : s.Nodup) (hf : ∀ x ∈ s, findList x t0 = none) :
    ∀ (suf pre : List String) (d : Bool) (fuel : Nat) (parent : Option (List Nat)),
      s = pre ++ suf → suf ≠ [] → 0 < fuel →
      creationLoopF (insertDirF fuel) parent (t0 ++ (chainL s ++ dupL z d)) suf =
        (t0 ++ (chainL s ++ dupL z (d || decide (2 ≤ suf.length))),
          .ok (some (t0.length :: List.replicate (s.length - 1) 0))) := by
  intro suf
  induction suf with
  | nil => intro pre d fuel parent _ h _; exact absurd rfl h
  | cons w rest ih =>
    intro pre d fuel parent hs _ hfuel
    cases rest with
    | nil =>
      have hwz : w = z := by
        have h1 := getLast?_suffix pre [w] z (by simp) (hs ▸ hzs)
        simpa using h1
      subst hwz
      have hwm : w ∈ s := by rw [hs]; simp
      have hfind := find_last_full t0 s (dupL w d) w hzs hnd (hf w hwm)
      rw [creationLoopF_single_some _ parent _ w _ hfind]
      simp
    | cons v more =>
      have hwm : w ∈ s := by rw [hs]; simp
      have hvnd : (pre ++ w :: v :: more).Nodup := hs ▸ hnd
      have hfind := find_in_full t0 w pre (v :: more) (dupL z d) hvnd (hf w hwm)
      rw [← hs] at hfind
      have hs2 : s = (pre ++ [w]) ++ (v :: more) := by rw [hs]; simp
      rw [creationLoopF_cons_some _ parent _ w v more _ hfind]
      cases more with
      | nil =>
        have hvz : v = z := by
          have h1 := getLast?_suffix (pre ++ [w]) [v] z (by simp) (hs2 ▸ hzs)
          simpa using h1
        subst hvz
        have h2s : 2 ≤ s.length := by
          rw [hs2, List.length_append]
          simp
        obtain ⟨r, hsingle⟩ := insertDirF_single_existing t0 s d v hzs hnd hf fuel hfuel
          (some (t0.length :: List.replicate pre.length 0)) h2s
        rw [hsingle]
        have hwalk := ih (pre ++ [w]) true fuel parent hs2 (by simp) hfuel
        rw [show (match (t0 ++ (chainL s ++ dupL v true), Except.ok r) with
            | (t2, Except.error e) => (t2, Except.error e)
            | (t2, Except.ok _) => creationLoopF (insertDirF fuel) parent t2 [v]) =
          creationLoopF (insertDirF fuel) parent (t0 ++ (chainL s ++ dupL v true)) [v]
          from rfl]
        rw [hwalk]
        simp
      | cons m2 more2 =>
        have hvz : (v :: m2 :: more2).getLast? = some z :=
          getLast?_suffix (pre ++ [w]) (v :: m2 :: more2) z (by simp) (hs2 ▸ hzs)
        have hex := insertDirF_exists_return t0 s (dupL z d) hnd hf fuel
          (some (t0.length :: List.replicate pre.length 0)) (pre ++ [w]) (v :: m2 :: more2) z
          hs2 hvz (by simp) hfuel
        rw [hex]
        have hwalk := ih (pre ++ [w]) d fuel parent hs2 (by simp) hfuel
        rw [show (match (t0 ++ (chainL s ++ dupL z d),
              Except.ok (some (t0.length :: List.replicate (s.length - 1) 0))) with
            | (t2, Except.error e) => (t2, Except.error e)
            | (t2, Except.ok _) =>
              creationLoopF (insertDirF fuel) parent t2 (v :: m2 :: more2)) =
          creationLoopF (insertDirF fuel) parent (t0 ++ (chainL s ++ dupL z d))
            (v :: m2 :: more2) from rfl]
        rw [hwalk]
        simp

theorem creationLoopF_single_none_parent
    (f : Tree → List String → Option (List Nat) → Tree × Except Unit (Option (List Nat)))
    (pp : List Nat) (t : Tree) (part : String)
    (hfind : findList part t = none) :
    creationLoopF f (some pp) t [part] =
      (appendChildAt t pp (.dir part []), .ok (some (pp ++ [childCountAt t pp]))) := by
  simp only [creationLoopF, hfind]

theorem creationLoopF_cons_none_parent
    (f : Tree → List String → Option (List Nat) → Tree × Except Unit (Option (List Nat)))
    (pp : List Nat) (t : Tree) (w v : String) (more : List String)
    (hfind : findList w t = none) :
    creationLoopF f (some pp) t (w :: v :: more) =
      match f (appendChildAt t pp (.dir w [])) (v :: more)
          (some (pp ++ [childCountAt t pp])) with
      | (t2, Except.error e) => (t2, Except.error e)
      | (t2, Except.ok _) => creationLoopF f (some pp) t2 (v :: more) := by
  simp only [creationLoopF, hfind]

theorem tip_path_eq (k : Nat) : (0 : Nat) :: List.replicate k 0 = List.replicate (k + 1) 0 := by
  simp [List.replicate_succ]

theorem tip_path_snoc (k : Nat) :
    List.replicate k (0 : Nat) ++ [0] = List.replicate (k + 1) 0 := by
  simp [List.replicate_succ']

theorem build_step_tree (t0 : Tree) (pre : List String) (w : String) (hpre : pre ≠ []) :
    appendChildAt (t0 ++ chainL pre)
        (t0.length :: List.replicate (pre.length - 1) 0) (.dir w []) =
      t0 ++ chainL (pre ++ [w]) := by
  rw [appendChildAt_pref]
  cases pre with
  | nil => exact absurd rfl hpre
  | cons p0 ps =>
    rw [show (List.length (p0 :: ps) - 1) = ps.length from by simp]
    rw [tip_path_eq, show (ps.length + 1) = (p0 :: ps).length from by simp]
    rw [chainL_extend w (p0 :: ps) (by simp)]

theorem build_step_count (t0 : Tree) (pre : List String) (hpre : pre ≠ []) :
    childCountAt (t0 ++ chainL pre) (t0.length :: List.replicate (pre.length - 1) 0) = 0 := by
  rw [childCountAt, childrenAtPath_pref]
  cases pre with
  | nil => exact absurd rfl hpre
  | cons p0 ps =>
    rw [show (List.length (p0 :: ps) - 1) = ps.length from by simp]
    rw [tip_path_eq, show (ps.length + 1) = (p0 :: ps).length from by simp]
    rw [chainL_tip_children (p0 :: ps) (by simp)]
    rfl

theorem build_full (t0 : Tree) (s : List String) (z : String)
    (hzs : s.getLast? = some z)
    (hnd : s.Nodup) (hf : ∀ x ∈ s, findList x t0 = none) :
    ∀ (suf pre : List String) (fuel : Nat),
      s = pre ++ suf → suf ≠ [] → pre ≠ [] → suf.length < fuel →
      insertDirF fuel (t0 ++ chainL pre) suf
          (some (t0.length :: List.replicate (pre.length - 1) 0)) =
        (t0 ++ (chainL s ++ dupL z (decide (3 ≤ suf.length))),
          .ok (some (t0.length :: List.replicate (s.length - 1) 0))) := by
  intro suf
  induction suf with
  | nil => intro pre fuel _ h _ _; exact absurd rfl h
  | cons w rest ih =>
    intro pre fuel hs _ hpre hfuel
    cases fuel with
    | zero => omega
    | succ f =>
      have hnd2 := hnd
      rw [hs, List.nodup_append] at hnd2
      have hdisj : ∀ x ∈ w :: rest, x ∉ pre :=
        fun x hx => List.disjoint_right.mp hnd2.2.2 hx
      have hfreshpre : ∀ x ∈ w :: rest, findList x (t0 ++ chainL pre) = none := by
        intro x hx
        exact find_fresh_pre t0 pre x (hdisj x hx)
          (hf x (by rw [hs]; exact List.mem_append_right _ hx))
      have hzw : (w :: rest).getLast? = some z :=
        getLast?_suffix pre _ z (by simp) (hs ▸ hzs)
      have hg : (((w :: rest).getLast?).getD "") = z := by rw [hzw]; rfl
      have hlastmem : z ∈ w :: rest := by
        have h1 := List.getLast?_eq_getLast (w :: rest) (by simp)
        rw [hzw] at h1
        rw [Option.some_injective _ h1]
        exact List.getLast_mem (by simp)
      have hlastfind : findList z (t0 ++ chainL pre) = none := hfreshpre z hlastmem
      simp only [insertDirF, hg, hlastfind]
      have hwfind : findList w (t0 ++ chainL pre) = none := hfreshpre w (by simp)
      cases rest with
      | nil =>
        have hwz : w = z := by simpa using hzw
        subst hwz
        rw [creationLoopF_single_none_parent _ _ _ _ hwfind]
        rw [build_step_tree t0 pre w hpre, build_step_count t0 pre hpre]
        have hlen : s.length - 1 = pre.length := by
          rw [hs, List.length_append]
          simp
        rw [show (t0.length :: List.replicate (pre.length - 1) 0) ++ [(0 : Nat)] =
            t0.length :: List.replicate pre.length 0 from by
          cases pre with
          | nil => exact absurd rfl hpre
          | cons p0 ps =>
            simp only [List.length_cons, Nat.add_sub_cancel, List.cons_append, tip_path_snoc]]
        rw [hs]
        simp [dupL]
      | cons v more =>
        rw [creationLoopF_cons_none_parent _ _ _ _ _ _ hwfind]
        rw [build_step_tree t0 pre w hpre, build_step_count t0 pre hpre]
        have hs2 : s = (pre ++ [w]) ++ (v :: more) := by rw [hs]; simp
        have htip : (t0.length :: List.replicate (pre.length - 1) 0) ++ [(0 : Nat)] =
            t0.length :: List.replicate ((pre ++ [w]).length - 1) 0 := by
          cases pre with
          | nil => exact absurd rfl hpre
          | cons p0 ps =>
            simp only [List.length_cons, Nat.add_sub_cancel, List.cons_append, tip_path_snoc,
              List.length_append, List.length_nil]
        rw [htip]
        have hih := ih (pre ++ [w]) f hs2 (by simp) (by simp)
          (by simp only [List.length_cons] at hfuel ⊢; omega)
        rw [hih]
        have hwalk := walk_full t0 s z hzs hnd hf (v :: more) (pre ++ [w])
          (decide (3 ≤ (v :: more).length)) f
          (some (t0.length :: List.replicate (pre.length - 1) 0)) hs2 (by simp)
          (by simp only [List.length_cons] at hfuel; omega)
        rw [show (match (t0 ++ (chainL s ++ dupL z (decide (3 ≤ (v :: more).length))),
              Except.ok (some (t0.length :: List.replicate (s.length - 1) 0))) with
            | (t2, Except.error e) => (t2, Except.error e)
            | (t2, Except.ok _) =>
              creationLoopF (insertDirF f)
                (some (t0.length :: List.replicate (pre.length - 1) 0)) t2 (v :: more)) =
          creationLoopF (insertDirF f)
            (some (t0.length :: List.replicate (pre.length - 1) 0))
            (t0 ++ (chainL s ++ dupL z (decide (3 ≤ (v :: more).length)))) (v :: more)
          from rfl]
        rw [hwalk]
        have hflag : (decide (3 ≤ (v :: more).length) || decide (2 ≤ (v :: more).length)) =
            decide (3 ≤ (w :: v :: more).length) := by
          simp only [List.length_cons]
          by_cases h : 1 ≤ more.length
          · have h2 : 2 ≤ more.length + 1 := by omega
            have h3a : 3 ≤ more.length + 1 + 1 := by omega
            simp [h2, h3a]
          · have hm : more.length = 0 := by omega
            simp [hm]
        rw [hflag]

theorem creationLoopF_single_none_root
    (f : Tree → List String → Option (List Nat) → Tree × Except Unit (Option (List Nat)))
    (t : Tree) (part : String) (hfind : findList part t = none) :
    creationLoopF f none t [part] = (t ++ [.dir part []], .ok (some [t.length])) := by
  simp only [creationLoopF, hfind]

theorem creationLoopF_cons_none_root
    (f : Tree → List String → Option (List Nat) → Tree × Except Unit (Option (List Nat)))
    (t : Tree) (w v : String) (more : List String) (hfind : findList w t = none) :
    creationLoopF f none t (w :: v :: more) =
      match f (t ++ [.dir w []]) (v :: more) (some [t.length]) with
      | (t2, Except.error e) => (t2, Except.error e)
      | (t2, Except.ok _) => creationLoopF f none t2 (v :: more) := by
  simp only [creationLoopF, hfind]

theorem dup_flag_eq (m : Nat) :
    (decide (3 ≤ m + 1) || decide (2 ≤ m + 1)) = decide (3 ≤ m + 2) := by
  by_cases h : 1 ≤ m
  · have h2 : 2 ≤ m + 1 := by omega
    have h3a : 3 ≤ m + 2 := by omega
    simp [h2, h3a]
  · have hm : m = 0 := by omega
    simp [hm]

theorem insertDir_first_call (t0 : Tree) (s : List String) (z : String)
    (hzs : s.getLast? = some z) (hnd : s.Nodup)
    (hf : ∀ x ∈ s, findList x t0 = none) (hs0 : s ≠ []) :
    insertDir t0 s none =
      (t0 ++ (chainL s ++ dupL z (decide (3 ≤ s.length))),
        .ok (some (t0.length :: List.replicate (s.length - 1) 0))) := by
  cases s with
  | nil => exact absurd rfl hs0
  | cons x u =>
    have hg : (((x :: u).getLast?).getD "") = z := by rw [hzs]; rfl
    have hzmem : z ∈ x :: u := by
      have h1 := List.getLast?_eq_getLast (x :: u) (by simp)
      rw [hzs] at h1
      rw [Option.some_injective _ h1]
      exact List.getLast_mem (by simp)
    have hlastfind : findList z t0 = none := hf z hzmem
    cases u with
    | nil =>
      have hxz : x = z := by simpa using hzs
      subst hxz
      simp only [insertDir, insertDirF, hg, hlastfind]
      rw [creationLoopF_single_none_root _ _ _ hlastfind]
      simp [chainL, chainDir, dupL, List.replicate]
    | cons v more =>
      have hwfind : findList x t0 = none := hf x (by simp)
      obtain ⟨F, hFe⟩ : ∃ F, (x :: v :: more).length = F := ⟨_, rfl⟩
      rw [show insertDir t0 (x :: v :: more) none =
          insertDirF (F + 1) t0 (x :: v :: more) none from by rw [← hFe]; rfl]
      simp only [insertDirF, hg, hlastfind]
      rw [creationLoopF_cons_none_root _ _ _ _ _ hwfind]
      have hs2 : x :: v :: more = ([x] : List String) ++ (v :: more) := by simp
      have hbuild := build_full t0 (x :: v :: more) z hzs hnd hf (v :: more) [x] F hs2
        (by simp) (by simp) (by simp only [List.length_cons] at hFe ⊢; omega)
      rw [show (t0 ++ [VNode.dir x []] : Tree) = t0 ++ chainL [x] from by
        simp [chainL, chainDir]]
      rw [show (some [t0.length] : Option (List Nat)) =
        some (t0.length :: List.replicate (([x] : List String).length - 1) 0) from rfl]
      rw [hbuild]
      have hwalk := walk_full t0 (x :: v :: more) z hzs hnd hf (v :: more) [x]
        (decide (3 ≤ (v :: more).length)) F none hs2 (by simp)
        (by simp only [List.length_cons] at hFe; omega)
      rw [show (match (t0 ++ (chainL (x :: v :: more) ++
              dupL z (decide (3 ≤ (v :: more).length))),
            Except.ok (some (t0.length ::
              List.replicate ((x :: v :: more).length - 1) 0))) with
          | (t2, Except.error e) => (t2, Except.error e)
          | (t2, Except.ok _) => creationLoopF (insertDirF F) none t2 (v :: more)) =
        creationLoopF (insertDirF F) none
          (t0 ++ (chainL (x :: v :: more) ++ dupL z (decide (3 ≤ (v :: more).length))))
          (v :: more) from rfl]
      rw [hwalk]
      rw [show (decide (3 ≤ (v :: more).length) || decide (2 ≤ (v :: more).length)) =
        decide (3 ≤ (x :: v :: more).length) from by
        simp only [List.length_cons]
        exact dup_flag_eq more.length]

theorem insertDir_second_call (t0 : Tree) (s : List String) (z : String)
    (hzs : s.getLast? = some z) (hnd : s.Nodup)
    (hf : ∀ x ∈ s, findList x t0 = none) (hs0 : s ≠ []) :
    insertDir (t0 ++ (chainL s ++ dupL z (decide (3 ≤ s.length)))) s none =
      (t0 ++ (chainL s ++ dupL z (decide (3 ≤ s.length))),
        .ok (some (t0.length :: List.replicate (s.length - 1) 0))) := by
  have hzmem : z ∈ s := by
    have h1 := List.getLast?_eq_getLast s hs0
    rw [hzs] at h1
    rw [Option.some_injective _ h1]
    exact List.getLast_mem hs0
  have hfind := find_last_full t0 s (dupL z (decide (3 ≤ s.length))) z hzs hnd (hf z hzmem)
  cases s with
  | nil => exact absurd rfl hs0
  | cons x u =>
    have hg : (((x :: u).getLast?).getD "") = z := by rw [hzs]; rfl
    cases u with
    | nil =>
      have hxz : x = z := by simpa using hzs
      subst hxz
      have hany : ((t0 ++ (chainL [x] ++ dupL x (decide (3 ≤ ([x] : List String).length)))).any
          (fun c => decide (vname c = x))) = true := by
        simp [chainL, chainDir, dupL, List.any_append, vname]
      simp only [insertDir, insertDirF, hg, hfind]
      simp
      intro h1 h2
      exact absurd rfl (h2 (VNode.dir x []) (by simp [chainL, chainDir]))
    | cons v more =>
      rw [show insertDir (t0 ++ (chainL (x :: v :: more) ++
            dupL z (decide (3 ≤ (x :: v :: more).length)))) (x :: v :: more) none =
          insertDirF ((x :: v :: more).length + 1)
            (t0 ++ (chainL (x :: v :: more) ++
              dupL z (decide (3 ≤ (x :: v :: more).length)))) (x :: v :: more) none
          from rfl]
      exact insertDirF_exists_return t0 (x :: v :: more)
        (dupL z (decide (3 ≤ (x :: v :: more).length))) hnd hf
        ((x :: v :: more).length + 1) none [] (x :: v :: more) z (by simp) hzs
        (by simp) (by omega)

/-- Claim C4: for a fresh, duplicate-free internal path (its segment names
are pairwise distinct and none of them names any node of the tree — the
formal reading of "no other part of the tree defines a colliding name"),
`_insert_dir` returns a node both times when called twice in succession with
the same path, the two returned nodes are the same node, and the second
call leaves the tree exactly as the first call left it, so it creates no
new directory nodes. -/
theorem claim_C4 (t0 : Tree) (s : List String) (hne : s ≠ []) (hnd : s.Nodup)
    (hf : ∀ x ∈ s, findList x t0 = none) :
    (insertDir t0 s none).2 =
      .ok (some (t0.length :: List.replicate (s.length - 1) 0)) ∧
    insertDir (insertDir t0 s none).1 s none =
      ((insertDir t0 s none).1,
        .ok (some (t0.length :: List.replicate (s.length - 1) 0))) := by
  have hzs := List.getLast?_eq_getLast s hne
  have h1 := insertDir_first_call t0 s (s.getLast hne) hzs hnd hf hne
  rw [h1]
  exact ⟨rfl, insertDir_second_call t0 s (s.getLast hne) hzs hnd hf hne⟩

/-- Witness for claim C4 on the three-segment path `a/b/c` over the empty
tree: both calls return the same node and the second call changes nothing. -/
theorem claim_C4_witness :
    (insertDir [] ["a", "b", "c"] none).2 = .ok (some [0, 0, 0]) ∧
      insertDir (insertDir [] ["a", "b", "c"] none).1 ["a", "b", "c"] none =
        ((insertDir [] ["a", "b", "c"] none).1, .ok (some [0, 0, 0])) :=
  claim_C4 [] ["a", "b", "c"] (by decide) (by decide) (fun x _ => rfl)

end Vdfs
